import Mathlib

/-!
Verification development for the flat-file vector retrieval component of the
repository (the RAG backends in `day15/backend.py` and `day16/backend.py`).

The Python source is shallowly embedded as follows:

* Text is modelled as `List Char`; Python `str.strip`, `str.splitlines` and
  whitespace-splitting are modelled on character lists (`strip`, `splitlines`,
  `words`), restricted to `'\n'` line terminators and ASCII whitespace.
* Embedding vectors handled by the retriever are modelled as `List ℚ`
  (exact arithmetic in place of IEEE floats); the unit-norm post-processing of
  `embed_text`, which needs a square root, is modelled over `ℝ`.
* The `await embed_text(...)` calls are modelled as values / functions of type
  `Except String (List ℚ)`: `.error` models a raised `Exception`.
* The module-level state of `day15/backend.py` (the `rag_index.json` artifact
  and the `RAG_INDEX` in-memory cache) is modelled by `BackendState`, and the
  `/reindex` endpoint as an explicit state transformer that returns the old
  state unchanged when an exception propagates out of the handler.
* The directory walk of `data/docs` is modelled by a list of
  `(filename, contents)` pairs in walk order.
-/

/-! ### Python string helpers (`str.strip`, `str.splitlines`, `str.split`) -/

/-- ASCII whitespace as recognised by Python's default `str.strip` / `str.split`. -/
def isPySpace (c : Char) : Bool :=
  c = ' ' || c = '\t' || c = '\n' || c = '\r' || c = '\x0b' || c = '\x0c'

/-- Python `str.lstrip()` on a character list. -/
def lstrip (s : List Char) : List Char := s.dropWhile isPySpace

/-- Python `str.rstrip()` on a character list. -/
def rstrip (s : List Char) : List Char := (s.reverse.dropWhile isPySpace).reverse

/-- Python `str.strip()` on a character list. -/
def strip (s : List Char) : List Char := rstrip (lstrip s)

/-- Helper for `splitlines`: `acc` is the current (incomplete) line. -/
def splitlinesAux : List Char → List Char → List (List Char)
  | [], acc => if acc.isEmpty then [] else [acc]
  | c :: cs, acc =>
    if c = '\n' then acc :: splitlinesAux cs []
    else splitlinesAux cs (acc ++ [c])

/-- Python `str.splitlines()` on a character list, for `'\n'`-terminated lines:
a trailing newline does not produce a final empty line, and the empty string
yields no lines. -/
def splitlines (s : List Char) : List (List Char) := splitlinesAux s []

/-- Python `str.split()` (split on runs of whitespace, dropping empties):
the sequence of whitespace-delimited words of a character list. -/
def words (s : List Char) : List (List Char) :=
  match s with
  | [] => []
  | c :: cs =>
    if isPySpace c then words cs
    else (c :: cs.takeWhile (fun d => !isPySpace d)) ::
      words (cs.dropWhile (fun d => !isPySpace d))
termination_by s.length
decreasing_by
  · simp only [List.length_cons]; omega
  · have hle : (cs.dropWhile (fun d => !isPySpace d)).length ≤ cs.length :=
      (List.dropWhile_sublist _).length_le
    simp only [List.length_cons]; omega

/-! ### Chunker (`chunk_text` in `day15/backend.py` and `day16/backend.py`;
the two files contain the identical function) -/

/-- `if buf.strip(): chunks.append(buf.strip())` — the flush step of the
chunking loop: emit the stripped buffer when it is non-empty. -/
def chunkFlush (buf : List Char) : List (List Char) :=
  if (strip buf).isEmpty then [] else [strip buf]

/-- The loop body of `chunk_text`: fold the remaining lines over the buffer.
`len(buf) + len(line) + 1 > max_chars` triggers a flush and restarts the
buffer with `line + "\n"`; otherwise `line + "\n"` is appended to the buffer.
After the loop the remaining buffer is flushed. -/
def chunkLoop (max_chars : Nat) : List (List Char) → List Char → List (List Char)
  | [], buf => chunkFlush buf
  | line :: rest, buf =>
    if max_chars < buf.length + line.length + 1 then
      chunkFlush buf ++ chunkLoop max_chars rest (line ++ ['\n'])
    else
      chunkLoop max_chars rest (buf ++ (line ++ ['\n']))

/-- `chunk_text(text, max_chars=800)`: simple character-based chunking with
line boundaries (identical in `day15/backend.py` and `day16/backend.py`). -/
def chunk_text (text : List Char) (max_chars : Nat := 800) : List (List Char) :=
  chunkLoop max_chars (splitlines text) []

/-! ### Index data model and similarity -/

/-- One entry of the `"chunks"` list of `rag_index.json`. -/
structure Chunk where
  id : String
  doc : String
  chunk_index : Nat
  text : List Char
  embedding : List ℚ
deriving Repr, DecidableEq

/-- The persisted index artifact: `{"chunks": [...], "doc_count": n}`. -/
structure RagIndex where
  chunks : List Chunk
  doc_count : Nat
deriving Repr, DecidableEq

/-- `cosine_sim(a, b) = sum(x * y for x, y in zip(a, b))` (identical in both
backends; the embeddings are pre-normalised so this is cosine similarity). -/
def cosine_sim (a b : List ℚ) : ℚ :=
  ((a.zip b).map (fun p => p.1 * p.2)).sum

/-- One element of the retrieval response `"chunks"` list. -/
structure RetrievalResult where
  doc : String
  chunk_index : Nat
  text : List Char
  score : ℚ
deriving Repr, DecidableEq

/-! ### The stable descending sort
`scored.sort(key=lambda x: x["score"], reverse=True)` — Python's `list.sort`
is stable; with `reverse=True` it orders by score descending and keeps
equal-score elements in their original relative order.  It is modelled by a
stable insertion sort on `(score, chunk)` pairs; the claims about it
(descending order, permutation, stability) are proved below, which is what
identifies it with Python's sort. -/

/-- Insert `x` in front of the first element whose score is `≤` the score of
`x` (so `x` lands after every earlier element with an equal or larger score:
stability for `reverse=True`). -/
def insertDesc (x : ℚ × Chunk) : List (ℚ × Chunk) → List (ℚ × Chunk)
  | [] => [x]
  | y :: ys => if y.1 ≤ x.1 then x :: y :: ys else y :: insertDesc x ys

/-- Stable sort by score descending (model of
`scored.sort(key=lambda x: x["score"], reverse=True)`). -/
def sortByScoreDesc : List (ℚ × Chunk) → List (ℚ × Chunk)
  | [] => []
  | x :: xs => insertDesc x (sortByScoreDesc xs)

/-! ### Retrieval (`retrieve_chunks` in day15, `retrieve` in day16) -/

/-- Response shape of day15 `retrieve_chunks`:
`{"chunks": [...], "all_scores": [...]}`. -/
structure Day15Response where
  chunks : List RetrievalResult
  all_scores : List ℚ
deriving Repr, DecidableEq

/-- Response shape of day16 `retrieve`: `{"chunks": [...]}`. -/
structure Day16Response where
  chunks : List RetrievalResult
deriving Repr, DecidableEq

namespace day15

/-- `retrieve_chunks(question, top_k, similarity_threshold)` from
`day15/backend.py`, as a function of the index chunk list and of the outcome
`embedQ` of `await embed_text(question)`.  The empty-index early return
happens before the embedding call; `similarity_threshold = none` models
Python `None`.  Note `scored.sort(...)` sorts in place, so the trailing
`all_scores` list is built from the sorted list. -/
def retrieve_chunks (indexChunks : List Chunk) (embedQ : Except String (List ℚ))
    (top_k : Nat) (similarity_threshold : Option ℚ) : Except String Day15Response :=
  if indexChunks.isEmpty then .ok ⟨[], []⟩ else
  match embedQ with
  | .error e => .error e
  | .ok q_emb =>
    let scored := indexChunks.map (fun ch => (cosine_sim q_emb ch.embedding, ch))
    let sorted := sortByScoreDesc scored
    let top := sorted.take top_k
    let top2 := match similarity_threshold with
      | none => top
      | some t => top.filter (fun s => t ≤ s.1)
    .ok ⟨top2.map (fun s => ⟨s.2.doc, s.2.chunk_index, s.2.text, s.1⟩),
         sorted.map (fun s => s.1)⟩

end day15

namespace day16

/-- `retrieve(question, top_k, threshold)` from `day16/backend.py`, as a
function of the index chunk list and of the outcome of
`await embed_text(question)`. -/
def retrieve (indexChunks : List Chunk) (embedQ : Except String (List ℚ))
    (top_k : Nat) (threshold : Option ℚ) : Except String Day16Response :=
  if indexChunks.isEmpty then .ok ⟨[]⟩ else
  match embedQ with
  | .error e => .error e
  | .ok qemb =>
    let scored := indexChunks.map (fun ch => (cosine_sim qemb ch.embedding, ch))
    let sorted := sortByScoreDesc scored
    let top := sorted.take top_k
    let top2 := match threshold with
      | none => top
      | some t => top.filter (fun s => t ≤ s.1)
    .ok ⟨top2.map (fun s => ⟨s.2.doc, s.2.chunk_index, s.2.text, s.1⟩)⟩

end day16

/-! ### Reindex endpoint (`day15/backend.py`; day16's differs only in its
response JSON) -/

/-- `fname.lower().endswith((".txt", ".md"))`, computed on the character
list of the file name. -/
def recognizedExt (fname : String) : Bool :=
  (".txt".toList).isSuffixOf (fname.toList.map Char.toLower) ||
  (".md".toList).isSuffixOf (fname.toList.map Char.toLower)

/-- The module state of `day15/backend.py`: the persisted `rag_index.json`
artifact (`none` when the file does not exist) and the in-memory `RAG_INDEX`
cache. -/
structure BackendState where
  savedFile : Option RagIndex
  cache : RagIndex
deriving Repr, DecidableEq

/-- `save_index`: overwrite the persisted artifact. -/
def save_index (st : BackendState) (idx : RagIndex) : BackendState :=
  { st with savedFile := some idx }

/-- `load_index`: read the artifact into the cache, or reset the cache to the
empty index when no artifact exists. -/
def load_index (st : BackendState) : BackendState :=
  { st with cache := st.savedFile.getD ⟨[], 0⟩ }

namespace day15

/-- The inner loop of the reindex endpoint over one document:
`for i, ch_text in enumerate(chunk_text(text)): embedding = await
embed_text(ch_text); chunks.append({...}); chunk_id += 1`.  `i` is the
per-document chunk index, `cid` the global running chunk id. -/
def embedDoc (embedT : List Char → Except String (List ℚ)) (doc : String) :
    List (List Char) → Nat → Nat → Except String (List Chunk)
  | [], _, _ => .ok []
  | t :: ts, i, cid =>
    match embedT t with
    | .error e => .error e
    | .ok emb =>
      match embedDoc embedT doc ts (i + 1) (cid + 1) with
      | .error e => .error e
      | .ok rest => .ok (⟨"chunk-" ++ toString cid, doc, i, t, emb⟩ :: rest)

/-- The file loop of the reindex endpoint: skip files without a recognised
extension, increment `doc_count` for every recognised file, chunk and embed
the recognised ones.  `dc` is the running `doc_count`. -/
def reindexLoop (embedT : List Char → Except String (List ℚ)) :
    List (String × List Char) → Nat → Nat → Except String (List Chunk × Nat)
  | [], _, dc => .ok ([], dc)
  | (fname, text) :: fs, cid, dc =>
    if recognizedExt fname then
      match embedDoc embedT fname (chunk_text text 800) 0 cid with
      | .error e => .error e
      | .ok docChunks =>
        match reindexLoop embedT fs (cid + (chunk_text text 800).length) (dc + 1) with
        | .error e => .error e
        | .ok (rest, dcf) => .ok (docChunks ++ rest, dcf)
    else reindexLoop embedT fs cid dc

/-- Response JSON of a successful `/reindex`. -/
structure ReindexResponse where
  success : Bool
  doc_count : Nat
  chunk_count : Nat
  message : String
deriving Repr, DecidableEq

/-- The `/reindex` endpoint of `day15/backend.py` as a state transformer.
`files` is the walk of `data/docs` as `(relative path, decoded contents)`
pairs; `embedT` is the outcome of `await embed_text(...)` per chunk text.
`save_index` and `load_index` run only after the whole loop has succeeded;
an exception propagating from an embedding call leaves both the persisted
artifact and the in-memory cache untouched. -/
def reindex_endpoint (st : BackendState) (files : List (String × List Char))
    (embedT : List Char → Except String (List ℚ)) :
    BackendState × Except String ReindexResponse :=
  match reindexLoop embedT files 0 0 with
  | .error e => (st, .error e)
  | .ok (chunks, dc) =>
    let index : RagIndex := ⟨chunks, dc⟩
    let st1 := save_index st index
    let st2 := load_index st1
    (st2, .ok ⟨true, dc, chunks.length,
      "Indexed " ++ toString dc ++ " docs into " ++ toString chunks.length ++ " chunks."⟩)

end day15

/-- The chunk texts that a reindex run submits to the embedding service, in
submission order: the chunking of every recognised file of the walk. -/
def corpusChunkTexts (files : List (String × List Char)) : List (List Char) :=
  ((files.filter (fun f => recognizedExt f.1)).map (fun f => chunk_text f.2 800)).flatten

/-! ### Prompt composition -/

namespace day15

/-- The prompt built by `ask_llm_with_rag` in `day15/backend.py` from the
question and the retrieved chunks (the pure composition step, without the
chat-API call it is passed to). -/
def compose_rag_prompt (question : String) (chunks : List RetrievalResult) : String :=
  let context_texts := chunks.map (fun c =>
    "[" ++ c.doc ++ " #" ++ toString c.chunk_index ++ "] " ++ String.mk c.text)
  let context_block := String.intercalate "\n\n" context_texts
  "You are a helpful assistant using RAG.\n" ++
  "You are given CONTEXT extracted from local documents.\n" ++
  "Use it when relevant. If you don\x27t see an answer in the context, say so.\n\n" ++
  "CONTEXT:\n" ++ context_block ++ "\n\n" ++
  "QUESTION: " ++ question

end day15

namespace day16

/-- The first prompt built by `ask_llm_with_citations` in `day16/backend.py`
(the pure composition step). -/
def compose_citations_prompt (question : String) (chunks : List RetrievalResult) : String :=
  let context_texts := chunks.map (fun c =>
    "[" ++ c.doc ++ "#" ++ toString c.chunk_index ++ "] " ++ String.mk c.text)
  let context_block := String.intercalate "\n\n" context_texts
  "You are a RAG assistant that MUST ALWAYS cite sources.\n\n" ++
  "RULES:\n" ++
  "- Use citations in the format: [filename#chunk_index] (e.g., [agents_overview.txt#0])\n" ++
  "- Every important fact or claim must include a citation\n" ++
  "- At the end of your answer, include a CITATIONS section listing all sources used\n\n" ++
  "CONTEXT (with chunk IDs):\n" ++ context_block ++ "\n\n" ++
  "QUESTION: " ++ question ++ "\n\n" ++
  "Provide a detailed answer with inline citations like [filename#chunk_index] throughout your response.\n" ++
  "End with a CITATIONS section listing all sources used.\n"

end day16

/-! ### Embedding post-processing (`embed_text` in both backends), over `ℝ` -/

/-- `sum(v * v for v in vec)`. -/
def sumsq (v : List ℝ) : ℝ := (v.map (fun x => x * x)).sum

/-- `float(sum(x * y for x, y in zip(a, b)))` over `ℝ`. -/
def dotf (a b : List ℝ) : ℝ := ((a.zip b).map (fun p => p.1 * p.2)).sum

/-- `math.sqrt(sum(v * v for v in vec))`. -/
noncomputable def l2norm (v : List ℝ) : ℝ := Real.sqrt (sumsq v)

/-- The post-processing of `embed_text` applied to the raw vector returned by
the embedding API: `norm = math.sqrt(sum(v*v for v in vec)) or 1.0;
return [v / norm for v in vec]` (identical in both backends). -/
noncomputable def embed_text (rawVec : List ℝ) : List ℝ :=
  let norm := l2norm rawVec
  let norm1 := if norm = 0 then 1 else norm
  rawVec.map (fun v => v / norm1)

/-! ## Lemmas about `words`, `strip` and friends -/

theorem takeWhile_append_stop {q : Char → Bool} {c : Char} (hc : q c = false) :
    ∀ (a b : List Char), (a ++ c :: b).takeWhile q = a.takeWhile q := by
  intro a b
  induction a with
  | nil => simp [List.takeWhile_cons, hc]
  | cons d a ih =>
    by_cases hd : q d
    · simp [List.takeWhile_cons, hd, ih]
    · simp [List.takeWhile_cons, hd]

theorem dropWhile_append_stop {q : Char → Bool} {c : Char} (hc : q c = false) :
    ∀ (a b : List Char), (a ++ c :: b).dropWhile q = a.dropWhile q ++ c :: b := by
  intro a b
  induction a with
  | nil => simp [List.dropWhile_cons, hc]
  | cons d a ih =>
    by_cases hd : q d
    · simp [List.dropWhile_cons, hd, ih]
    · simp [List.dropWhile_cons, hd]

theorem words_nil : words [] = [] := by
  rw [words]

theorem words_cons_space {c : Char} (hc : isPySpace c = true) (s : List Char) :
    words (c :: s) = words s := by
  rw [words]
  simp [hc]

theorem words_cons_nonspace {c : Char} (hc : isPySpace c = false) (s : List Char) :
    words (c :: s) =
      (c :: s.takeWhile (fun d => !isPySpace d)) ::
        words (s.dropWhile (fun d => !isPySpace d)) := by
  rw [words]
  simp [hc]

theorem words_append_space (c : Char) (hc : isPySpace c = true) :
    ∀ (a b : List Char), words (a ++ c :: b) = words a ++ words b := by
  have key : ∀ (n : Nat) (a : List Char), a.length ≤ n →
      ∀ b, words (a ++ c :: b) = words a ++ words b := by
    intro n
    induction n with
    | zero =>
      intro a ha b
      have : a = [] := List.eq_nil_of_length_eq_zero (Nat.le_zero.mp ha)
      subst this
      simp [words_cons_space hc, words_nil]
    | succ n ih =>
      intro a ha b
      match a with
      | [] => simp [words_cons_space hc, words_nil]
      | d :: a' =>
        simp only [List.length_cons, Nat.succ_le_succ_iff] at ha
        by_cases hd : isPySpace d
        · rw [List.cons_append, words_cons_space hd, words_cons_space hd, ih a' ha]
        · have hq : (fun d => !isPySpace d) c = false := by simp [hc]
          rw [List.cons_append, words_cons_nonspace (by simp [hd]),
            words_cons_nonspace (by simp [hd]),
            takeWhile_append_stop hq, dropWhile_append_stop hq]
          have hlen : (a'.dropWhile (fun d => !isPySpace d)).length ≤ n :=
            Nat.le_trans (List.dropWhile_sublist _).length_le ha
          rw [ih _ hlen]
          simp
  intro a b
  exact key a.length a (Nat.le_refl _) b

theorem words_allspace : ∀ {s : List Char}, (∀ x ∈ s, isPySpace x = true) → words s = [] := by
  intro s
  induction s with
  | nil => intro _; exact words_nil
  | cons c cs ih =>
    intro h
    rw [words_cons_space (h c (by simp))]
    exact ih (fun x hx => h x (List.mem_cons_of_mem _ hx))

theorem words_append_allspace {sp : List Char} (hsp : ∀ x ∈ sp, isPySpace x = true)
    (t : List Char) : words (t ++ sp) = words t := by
  match sp with
  | [] => simp
  | c :: sp' =>
    rw [words_append_space c (hsp c (by simp)) t sp',
      words_allspace (fun x hx => hsp x (List.mem_cons_of_mem _ hx))]
    simp

theorem words_lstrip (s : List Char) : words (lstrip s) = words s := by
  unfold lstrip
  induction s with
  | nil => rfl
  | cons c cs ih =>
    by_cases hc : isPySpace c
    · rw [List.dropWhile_cons_of_pos (by simp [hc]), ih, words_cons_space hc]
    · rw [List.dropWhile_cons_of_neg (by simp [hc])]

theorem words_rstrip (s : List Char) : words (rstrip s) = words s := by
  have hs : s = rstrip s ++ (s.reverse.takeWhile isPySpace).reverse := by
    unfold rstrip
    rw [← List.reverse_append, List.takeWhile_append_dropWhile, List.reverse_reverse]
  have hsp : ∀ x ∈ (s.reverse.takeWhile isPySpace).reverse, isPySpace x = true := by
    intro x hx
    exact List.mem_takeWhile_imp (List.mem_reverse.mp hx)
  conv_rhs => rw [hs]
  rw [words_append_allspace hsp]

theorem words_strip (s : List Char) : words (strip s) = words s := by
  unfold strip
  rw [words_rstrip, words_lstrip]

theorem words_append_newline (a : List Char) : words (a ++ ['\n']) = words a :=
  words_append_allspace (by intro x hx; simp at hx; simp [hx, isPySpace]) a

theorem length_lstrip_le (s : List Char) : (lstrip s).length ≤ s.length :=
  (List.dropWhile_sublist _).length_le

theorem length_rstrip_le (s : List Char) : (rstrip s).length ≤ s.length := by
  unfold rstrip
  rw [List.length_reverse]
  exact Nat.le_trans (List.dropWhile_sublist _).length_le (by rw [List.length_reverse])

theorem length_strip_le (s : List Char) : (strip s).length ≤ s.length :=
  Nat.le_trans (length_rstrip_le _) (length_lstrip_le _)

theorem rstrip_append_newline (x : List Char) : rstrip (x ++ ['\n']) = rstrip x := by
  unfold rstrip
  rw [List.reverse_append]
  simp [List.dropWhile_cons, isPySpace]

theorem strip_append_newline (l : List Char) : strip (l ++ ['\n']) = strip l := by
  unfold strip lstrip
  rw [List.dropWhile_append]
  by_cases h : (l.dropWhile isPySpace).isEmpty
  · rw [if_pos h]
    rw [List.isEmpty_iff.mp h]
    simp [List.dropWhile_cons, isPySpace, rstrip]
  · rw [if_neg h]
    exact rstrip_append_newline _

theorem strip_nil : strip [] = [] := rfl

/-! ## Lemmas about the chunker -/

/-- Size invariant of the chunking loop: every emitted chunk fits in the
budget, or is the stripped form of a single over-long input line. -/
theorem chunkLoop_size (L0 : List (List Char)) (m : Nat) :
    ∀ (lines : List (List Char)) (buf : List Char),
      (∀ l ∈ lines, l ∈ L0) →
      ((strip buf).length ≤ m ∨ ∃ l ∈ L0, strip buf = strip l ∧ m < l.length) →
      ∀ c ∈ chunkLoop m lines buf,
        c.length ≤ m ∨ ∃ l ∈ L0, c = strip l ∧ m < l.length := by
  intro lines
  induction lines with
  | nil =>
    intro buf _ hbuf c hc
    unfold chunkLoop chunkFlush at hc
    by_cases hb : (strip buf).isEmpty
    · simp [hb] at hc
    · simp [hb] at hc
      subst hc
      exact hbuf
  | cons line rest ih =>
    intro buf hmem hbuf c hc
    have hline : line ∈ L0 := hmem line (by simp)
    have hrest : ∀ l ∈ rest, l ∈ L0 := fun l hl => hmem l (List.mem_cons_of_mem _ hl)
    unfold chunkLoop at hc
    by_cases hcond : m < buf.length + line.length + 1
    · rw [if_pos hcond] at hc
      rcases List.mem_append.mp hc with hflush | hrec
      · unfold chunkFlush at hflush
        by_cases hb : (strip buf).isEmpty
        · simp [hb] at hflush
        · simp [hb] at hflush
          subst hflush
          exact hbuf
      · refine ih (line ++ ['\n']) hrest ?_ c hrec
        rw [strip_append_newline]
        by_cases hs : (strip line).length ≤ m
        · exact Or.inl hs
        · refine Or.inr ⟨line, hline, rfl, ?_⟩
          have := length_strip_le line
          omega
    · rw [if_neg hcond] at hc
      refine ih (buf ++ (line ++ ['\n'])) hrest ?_ c hc
      left
      have h1 := length_strip_le (buf ++ (line ++ ['\n']))
      have h2 : (buf ++ (line ++ ['\n'])).length = buf.length + line.length + 1 := by
        simp
        omega
      omega

/-- The words of the flushed buffer are exactly the words of the buffer
(an all-whitespace buffer is dropped, but it contains no words). -/
theorem chunkFlush_words (buf : List Char) :
    ((chunkFlush buf).map words).flatten = words buf := by
  unfold chunkFlush
  by_cases hb : (strip buf).isEmpty
  · have : strip buf = [] := List.isEmpty_iff.mp hb
    have hw : words buf = [] := by
      rw [← words_strip, this, words_nil]
    simp [hb, hw]
  · simp [hb, words_strip]

/-- Word preservation of the chunking loop: the words of all emitted chunks
are the words of the buffer followed by the words of the remaining lines. -/
theorem chunkLoop_words (m : Nat) :
    ∀ (lines : List (List Char)) (buf : List Char),
      (buf = [] ∨ ∃ b, buf = b ++ ['\n']) →
      ((chunkLoop m lines buf).map words).flatten =
        words buf ++ (lines.map words).flatten := by
  intro lines
  induction lines with
  | nil =>
    intro buf _
    unfold chunkLoop
    rw [chunkFlush_words]
    simp
  | cons line rest ih =>
    intro buf hbuf
    unfold chunkLoop
    by_cases hcond : m < buf.length + line.length + 1
    · rw [if_pos hcond, List.map_append, List.flatten_append, chunkFlush_words,
        ih (line ++ ['\n']) (Or.inr ⟨line, rfl⟩), words_append_newline]
      simp
    · rw [if_neg hcond, ih (buf ++ (line ++ ['\n'])) (Or.inr ⟨buf ++ line, by simp⟩)]
      have hsplit : words (buf ++ (line ++ ['\n'])) = words buf ++ words line := by
        rcases hbuf with hnil | ⟨b, hb⟩
        · subst hnil
          simp [words_append_newline, words_nil]
        · subst hb
          have : (b ++ ['\n']) ++ (line ++ ['\n']) = b ++ '\n' :: (line ++ ['\n']) := by
            simp
          rw [this, words_append_space '\n' (by simp [isPySpace]) b (line ++ ['\n']),
            words_append_newline, words_append_newline]
      rw [hsplit]
      simp

/-- The words of the lines emitted by `splitlinesAux` are the words of the
pending line followed by those of the remaining text. -/
theorem splitlinesAux_words :
    ∀ (s acc : List Char),
      ((splitlinesAux s acc).map words).flatten = words (acc ++ s) := by
  intro s
  induction s with
  | nil =>
    intro acc
    unfold splitlinesAux
    by_cases h : acc.isEmpty
    · rw [if_pos h, List.isEmpty_iff.mp h]
      simp [words_nil]
    · rw [if_neg h]
      simp
  | cons c cs ih =>
    intro acc
    unfold splitlinesAux
    by_cases h : c = '\n'
    · rw [if_pos h]
      subst h
      simp only [List.map_cons, List.flatten_cons, ih []]
      rw [List.nil_append, words_append_space '\n' (by simp [isPySpace]) acc cs]
    · rw [if_neg h, ih (acc ++ [c])]
      rw [List.append_assoc, List.singleton_append]

/-- The words of the individual lines of a text are, concatenated, the words
of the text. -/
theorem splitlines_words (s : List Char) :
    ((splitlines s).map words).flatten = words s := by
  unfold splitlines
  rw [splitlinesAux_words s []]
  rfl

/-! ## Lemmas about the stable descending sort -/

/-- Descending order on scored chunks. -/
def ScoreDesc (l : List (ℚ × Chunk)) : Prop :=
  List.Pairwise (fun a b => b.1 ≤ a.1) l

theorem insertDesc_perm (x : ℚ × Chunk) :
    ∀ (l : List (ℚ × Chunk)), (insertDesc x l).Perm (x :: l) := by
  intro l
  induction l with
  | nil => exact List.Perm.refl _
  | cons y ys ih =>
    unfold insertDesc
    by_cases h : y.1 ≤ x.1
    · rw [if_pos h]
    · rw [if_neg h]
      exact (ih.cons y).trans (List.Perm.swap x y ys)

theorem sortByScoreDesc_perm :
    ∀ (l : List (ℚ × Chunk)), (sortByScoreDesc l).Perm l := by
  intro l
  induction l with
  | nil => exact List.Perm.refl _
  | cons x xs ih =>
    exact (insertDesc_perm x (sortByScoreDesc xs)).trans (ih.cons x)

theorem insertDesc_sorted (x : ℚ × Chunk) :
    ∀ (l : List (ℚ × Chunk)), ScoreDesc l → ScoreDesc (insertDesc x l) := by
  intro l
  induction l with
  | nil => intro _; exact List.pairwise_singleton _ _
  | cons y ys ih =>
    intro hl
    rcases List.pairwise_cons.mp hl with ⟨hy, hys⟩
    unfold insertDesc
    by_cases h : y.1 ≤ x.1
    · rw [if_pos h]
      refine List.pairwise_cons.mpr ⟨?_, hl⟩
      intro a ha
      rcases List.mem_cons.mp ha with rfl | ha
      · exact h
      · exact le_trans (hy a ha) h
    · rw [if_neg h]
      refine List.pairwise_cons.mpr ⟨?_, ih hys⟩
      intro a ha
      have := (insertDesc_perm x ys).mem_iff.mp ha
      rcases List.mem_cons.mp this with rfl | ha2
      · exact le_of_not_le h
      · exact hy a ha2

theorem sortByScoreDesc_sorted :
    ∀ (l : List (ℚ × Chunk)), ScoreDesc (sortByScoreDesc l) := by
  intro l
  induction l with
  | nil => exact List.Pairwise.nil
  | cons x xs ih => exact insertDesc_sorted x (sortByScoreDesc xs) ih

theorem filter_insertDesc_eq (x : ℚ × Chunk) (s : ℚ) (hx : x.1 = s) :
    ∀ (l : List (ℚ × Chunk)),
      (insertDesc x l).filter (fun y => decide (y.1 = s)) =
        x :: l.filter (fun y => decide (y.1 = s)) := by
  intro l
  induction l with
  | nil => simp [insertDesc, hx]
  | cons y ys ih =>
    unfold insertDesc
    by_cases h : y.1 ≤ x.1
    · rw [if_pos h]
      simp [hx]
    · rw [if_neg h]
      have hy : ¬(y.1 = s) := by
        intro hys
        exact h (le_of_eq (hys.trans hx.symm))
      rw [List.filter_cons, if_neg (by simpa using hy), ih,
        List.filter_cons, if_neg (by simpa using hy)]

theorem filter_insertDesc_ne (x : ℚ × Chunk) (s : ℚ) (hx : ¬(x.1 = s)) :
    ∀ (l : List (ℚ × Chunk)),
      (insertDesc x l).filter (fun y => decide (y.1 = s)) =
        l.filter (fun y => decide (y.1 = s)) := by
  intro l
  induction l with
  | nil => simp [insertDesc, hx]
  | cons y ys ih =>
    unfold insertDesc
    by_cases h : y.1 ≤ x.1
    · rw [if_pos h]
      rw [List.filter_cons, if_neg (by simpa using hx)]
    · rw [if_neg h]
      rw [List.filter_cons, ih, List.filter_cons]

/-- Stability of the sort: for every score value, the sorted list restricted
to that score is the input list restricted to that score, in the same order. -/
theorem sortByScoreDesc_stable (s : ℚ) :
    ∀ (l : List (ℚ × Chunk)),
      (sortByScoreDesc l).filter (fun y => decide (y.1 = s)) =
        l.filter (fun y => decide (y.1 = s)) := by
  intro l
  induction l with
  | nil => rfl
  | cons x xs ih =>
    show (insertDesc x (sortByScoreDesc xs)).filter _ = _
    by_cases hx : x.1 = s
    · rw [filter_insertDesc_eq x s hx, ih, List.filter_cons, if_pos (by simpa using hx)]
    · rw [filter_insertDesc_ne x s hx, ih, List.filter_cons, if_neg (by simpa using hx)]

/-- A list that is sorted by score descending is uniquely determined by its
score-fibers: stable descending sorting has a unique result. -/
theorem scoreDesc_stable_unique :
    ∀ (l1 l2 : List (ℚ × Chunk)), ScoreDesc l1 → ScoreDesc l2 →
      (∀ s : ℚ, l1.filter (fun y => decide (y.1 = s)) =
        l2.filter (fun y => decide (y.1 = s))) →
      l1 = l2 := by
  intro l1
  induction l1 with
  | nil =>
    intro l2 _ _ hf
    match l2 with
    | [] => rfl
    | y :: t2 =>
      have := hf y.1
      rw [List.filter_cons, if_pos (by simp)] at this
      simp at this
  | cons x t1 ih =>
    intro l2 h1 h2 hf
    match l2 with
    | [] =>
      have := hf x.1
      rw [List.filter_cons, if_pos (by simp)] at this
      simp at this
    | y :: t2 =>
      have hxy : x = y := by
        by_cases hs : y.1 = x.1
        · have := hf x.1
          rw [List.filter_cons, if_pos (by simp), List.filter_cons,
            if_pos (by simpa using hs)] at this
          exact ((List.cons.injEq ..).mp this).1
        · have hx1 := hf x.1
          rw [List.filter_cons, if_pos (by simp), List.filter_cons,
            if_neg (by simpa using hs)] at hx1
          have hxmem : x ∈ t2 := by
            have : x ∈ t2.filter (fun y => decide (y.1 = x.1)) := by
              rw [← hx1]; simp
            exact (List.mem_filter.mp this).1
          have hy1 := hf y.1
          rw [List.filter_cons, if_neg (by simp; intro h; exact hs h.symm),
            List.filter_cons, if_pos (by simp)] at hy1
          have hymem : y ∈ t1 := by
            have : y ∈ t1.filter (fun z => decide (z.1 = y.1)) := by
              rw [hy1]; simp
            exact (List.mem_filter.mp this).1
          have hxle : x.1 ≤ y.1 := List.rel_of_pairwise_cons h2 hxmem
          have hyle : y.1 ≤ x.1 := List.rel_of_pairwise_cons h1 hymem
          exact absurd (le_antisymm hyle hxle) hs
      subst hxy
      have htail : ∀ s : ℚ, t1.filter (fun y => decide (y.1 = s)) =
          t2.filter (fun y => decide (y.1 = s)) := by
        intro s
        have := hf s
        by_cases hs : x.1 = s
        · rw [List.filter_cons, if_pos (by simpa using hs), List.filter_cons,
            if_pos (by simpa using hs)] at this
          exact ((List.cons.injEq ..).mp this).2
        · rw [List.filter_cons, if_neg (by simpa using hs), List.filter_cons,
            if_neg (by simpa using hs)] at this
          exact this
      rw [ih t2 (List.pairwise_cons.mp h1).2 (List.pairwise_cons.mp h2).2 htail]

/-! ## Lemmas about the reindex loop -/

namespace day15

/-- If the per-document embedding loop succeeds, every submitted chunk text
embedded successfully. -/
theorem embedDoc_ok_embeds (embedT : List Char → Except String (List ℚ)) (doc : String) :
    ∀ (texts : List (List Char)) (i cid : Nat) (res : List Chunk),
      embedDoc embedT doc texts i cid = .ok res →
      ∀ t ∈ texts, ∃ v, embedT t = .ok v := by
  intro texts
  induction texts with
  | nil => intro i cid res _ t ht; simp at ht
  | cons t0 ts ih =>
    intro i cid res hres t ht
    unfold embedDoc at hres
    match hemb : embedT t0 with
    | .error e => simp [hemb] at hres
    | .ok emb =>
      simp only [hemb] at hres
      match hrest : embedDoc embedT doc ts (i + 1) (cid + 1) with
      | .error e => simp [hrest] at hres
      | .ok rest =>
        rcases List.mem_cons.mp ht with rfl | ht2
        · exact ⟨emb, hemb⟩
        · exact ih (i + 1) (cid + 1) rest hrest t ht2

/-- If the per-document embedding loop succeeds, every produced chunk stores
the vector the embedder returned for its own text. -/
theorem embedDoc_ok_vectors (embedT : List Char → Except String (List ℚ)) (doc : String) :
    ∀ (texts : List (List Char)) (i cid : Nat) (res : List Chunk),
      embedDoc embedT doc texts i cid = .ok res →
      ∀ ch ∈ res, embedT ch.text = .ok ch.embedding := by
  intro texts
  induction texts with
  | nil =>
    intro i cid res hres ch hch
    unfold embedDoc at hres
    rw [← (Except.ok.injEq ..).mp hres] at hch
    simp at hch
  | cons t0 ts ih =>
    intro i cid res hres ch hch
    unfold embedDoc at hres
    match hemb : embedT t0 with
    | .error e => simp [hemb] at hres
    | .ok emb =>
      simp only [hemb] at hres
      match hrest : embedDoc embedT doc ts (i + 1) (cid + 1) with
      | .error e => simp [hrest] at hres
      | .ok rest =>
        simp only [hrest] at hres
        rw [← (Except.ok.injEq ..).mp hres] at hch
        rcases List.mem_cons.mp hch with rfl | hch2
        · exact hemb
        · exact ih (i + 1) (cid + 1) rest hrest ch hch2

/-- If the whole reindex loop succeeds, every chunk text of the corpus
embedded successfully. -/
theorem reindexLoop_ok_embeds (embedT : List Char → Except String (List ℚ)) :
    ∀ (files : List (String × List Char)) (cid dc : Nat) (res : List Chunk × Nat),
      reindexLoop embedT files cid dc = .ok res →
      ∀ t ∈ corpusChunkTexts files, ∃ v, embedT t = .ok v := by
  intro files
  induction files with
  | nil => intro cid dc res _ t ht; simp [corpusChunkTexts] at ht
  | cons f fs ih =>
    intro cid dc res hres t ht
    obtain ⟨fname, text⟩ := f
    simp only [reindexLoop] at hres
    by_cases hrec : recognizedExt fname
    · rw [if_pos hrec] at hres
      match hdoc : embedDoc embedT fname (chunk_text text 800) 0 cid with
      | .error e => simp [hdoc] at hres
      | .ok docChunks =>
        simp only [hdoc] at hres
        match hrest : reindexLoop embedT fs (cid + (chunk_text text 800).length) (dc + 1) with
        | .error e => simp [hrest] at hres
        | .ok prest =>
          have hsplit : corpusChunkTexts ((fname, text) :: fs) =
              chunk_text text 800 ++ corpusChunkTexts fs := by
            unfold corpusChunkTexts
            rw [List.filter_cons, if_pos (by simpa using hrec)]
            simp
          rw [hsplit] at ht
          rcases List.mem_append.mp ht with ht1 | ht2
          · exact embedDoc_ok_embeds embedT fname _ 0 cid docChunks hdoc t ht1
          · exact ih _ (dc + 1) prest hrest t ht2
    · rw [if_neg hrec] at hres
      have hsplit : corpusChunkTexts ((fname, text) :: fs) = corpusChunkTexts fs := by
        unfold corpusChunkTexts
        rw [List.filter_cons, if_neg (by simpa using hrec)]
      rw [hsplit] at ht
      exact ih cid dc res hres t ht

/-- If the whole reindex loop succeeds, every produced chunk stores the
vector the embedder returned for its own text. -/
theorem reindexLoop_ok_vectors (embedT : List Char → Except String (List ℚ)) :
    ∀ (files : List (String × List Char)) (cid dc : Nat) (res : List Chunk × Nat),
      reindexLoop embedT files cid dc = .ok res →
      ∀ ch ∈ res.1, embedT ch.text = .ok ch.embedding := by
  intro files
  induction files with
  | nil =>
    intro cid dc res hres ch hch
    simp only [reindexLoop] at hres
    rw [← (Except.ok.injEq ..).mp hres] at hch
    simp at hch
  | cons f fs ih =>
    intro cid dc res hres ch hch
    obtain ⟨fname, text⟩ := f
    simp only [reindexLoop] at hres
    by_cases hrec : recognizedExt fname
    · rw [if_pos hrec] at hres
      match hdoc : embedDoc embedT fname (chunk_text text 800) 0 cid with
      | .error e => simp [hdoc] at hres
      | .ok docChunks =>
        simp only [hdoc] at hres
        match hrest : reindexLoop embedT fs (cid + (chunk_text text 800).length) (dc + 1) with
        | .error e => simp [hrest] at hres
        | .ok prest =>
          simp only [hrest] at hres
          rw [← (Except.ok.injEq ..).mp hres] at hch
          rcases List.mem_append.mp hch with hch1 | hch2
          · exact embedDoc_ok_vectors embedT fname _ 0 cid docChunks hdoc ch hch1
          · exact ih _ (dc + 1) prest hrest ch hch2
    · rw [if_neg hrec] at hres
      exact ih cid dc res hres ch hch

/-- If the whole reindex loop succeeds, the final `doc_count` is the initial
one plus the number of recognised files of the walk. -/
theorem reindexLoop_ok_doc_count (embedT : List Char → Except String (List ℚ)) :
    ∀ (files : List (String × List Char)) (cid dc : Nat) (res : List Chunk × Nat),
      reindexLoop embedT files cid dc = .ok res →
      res.2 = dc + (files.filter (fun f => recognizedExt f.1)).length := by
  intro files
  induction files with
  | nil =>
    intro cid dc res hres
    simp only [reindexLoop] at hres
    rw [← (Except.ok.injEq ..).mp hres]
    simp
  | cons f fs ih =>
    intro cid dc res hres
    obtain ⟨fname, text⟩ := f
    simp only [reindexLoop] at hres
    by_cases hrec : recognizedExt fname
    · rw [if_pos hrec] at hres
      match hdoc : embedDoc embedT fname (chunk_text text 800) 0 cid with
      | .error e => simp [hdoc] at hres
      | .ok docChunks =>
        simp only [hdoc] at hres
        match hrest : reindexLoop embedT fs (cid + (chunk_text text 800).length) (dc + 1) with
        | .error e => simp [hrest] at hres
        | .ok prest =>
          simp only [hrest] at hres
          rw [← (Except.ok.injEq ..).mp hres]
          have := ih _ (dc + 1) prest hrest
          rw [List.filter_cons, if_pos (by simpa using hrec)]
          simp only [List.length_cons]
          omega
    · rw [if_neg hrec] at hres
      rw [List.filter_cons, if_neg (by simpa using hrec)]
      exact ih cid dc res hres

end day15

/-! ## Lemmas about the embedding post-processing -/

theorem list_sum_map_div {α : Type} (c : ℝ) :
    ∀ (l : List α) (f : α → ℝ),
      (l.map (fun x => f x / c)).sum = (l.map f).sum / c := by
  intro l f
  induction l with
  | nil => simp
  | cons x xs ih =>
    simp only [List.map_cons, List.sum_cons, ih]
    ring

theorem sumsq_nonneg (v : List ℝ) : 0 ≤ sumsq v := by
  unfold sumsq
  refine List.sum_nonneg ?_
  intro x hx
  rcases List.mem_map.mp hx with ⟨a, _, rfl⟩
  exact mul_self_nonneg a

theorem sumsq_pos {v : List ℝ} {x : ℝ} (hx : x ∈ v) (hx0 : x ≠ 0) : 0 < sumsq v := by
  have hmem : x * x ∈ v.map (fun y => y * y) := List.mem_map.mpr ⟨x, hx, rfl⟩
  have hle : x * x ≤ sumsq v := by
    unfold sumsq
    refine List.single_le_sum ?_ _ hmem
    intro y hy
    rcases List.mem_map.mp hy with ⟨a, _, rfl⟩
    exact mul_self_nonneg a
  have : 0 < x * x := mul_self_pos.mpr hx0
  linarith

theorem l2norm_pos {v : List ℝ} {x : ℝ} (hx : x ∈ v) (hx0 : x ≠ 0) : 0 < l2norm v := by
  unfold l2norm
  exact Real.sqrt_pos.mpr (sumsq_pos hx hx0)

theorem sumsq_map_div (v : List ℝ) (c : ℝ) :
    sumsq (v.map (fun x => x / c)) = sumsq v / (c * c) := by
  unfold sumsq
  rw [List.map_map]
  have h1 : ((fun x => x * x) ∘ fun x => x / c) = fun x => (x * x) / (c * c) := by
    funext x
    simp only [Function.comp]
    by_cases hc : c = 0
    · simp [hc]
    · field_simp
  rw [h1, list_sum_map_div (c * c) v (fun x => x * x)]

theorem dotf_map_div (a b : List ℝ) (c d : ℝ) :
    dotf (a.map (fun x => x / c)) (b.map (fun x => x / d)) = dotf a b / (c * d) := by
  unfold dotf
  rw [List.zip_map, List.map_map]
  have h1 : ((fun p : ℝ × ℝ => p.1 * p.2) ∘ Prod.map (fun x => x / c) (fun x => x / d)) =
      fun p : ℝ × ℝ => (p.1 * p.2) / (c * d) := by
    funext p
    simp only [Function.comp, Prod.map]
    by_cases hc : c = 0
    · simp [hc]
    · by_cases hd : d = 0
      · simp [hd]
      · field_simp
  rw [h1]
  exact list_sum_map_div (c * d) (a.zip b) (fun p => p.1 * p.2)

/-- For a raw vector with at least one nonzero component, the post-processed
vector is the raw vector divided by its (positive) L2 norm, and its own L2
norm is exactly 1 in the real-number model. -/
theorem l2norm_embed_text {v : List ℝ} {x : ℝ} (hx : x ∈ v) (hx0 : x ≠ 0) :
    l2norm (embed_text v) = 1 := by
  have hpos := l2norm_pos hx hx0
  have hne : l2norm v ≠ 0 := ne_of_gt hpos
  unfold embed_text
  simp only [if_neg hne]
  unfold l2norm at hpos hne ⊢
  rw [sumsq_map_div, Real.mul_self_sqrt (sumsq_nonneg v),
    div_self (ne_of_gt (sumsq_pos hx hx0)), Real.sqrt_one]

/-! ## Claim theorems -/

/-- **C3, corrected.**  For every input text and every `max_size > 0`, no
chunk produced by `chunk_text` exceeds `max_size` characters, except that a
single input line whose own length exceeds `max_size` becomes its own chunk
**after whitespace stripping** (`buf.strip()` is applied to every emitted
chunk, over-long single lines included; the line is not split further, but
it is not passed through unchanged). -/
theorem claim_C3 : ∀ (text : List Char) (max_size : Nat), 0 < max_size →
    ∀ c ∈ chunk_text text max_size,
      c.length ≤ max_size ∨ ∃ l ∈ splitlines text, c = strip l ∧ max_size < l.length := by
  intro text max_size _ c hc
  refine chunkLoop_size (splitlines text) max_size (splitlines text) []
    (fun l hl => hl) ?_ c hc
  left
  simp [strip_nil]

theorem claim_C3_witness :
    0 < 5 ∧ (("hi".toList).length ≤ 5 ∨
      ∃ l ∈ splitlines ("hi".toList), "hi".toList = strip l ∧ 5 < l.length) :=
  ⟨by decide, claim_C3 ("hi".toList) 5 (by decide) ("hi".toList) (by decide)⟩

/-- **C3, counterexample to the claim as stated.**  The claim says an
over-long input line "becomes its own chunk and is passed through
unchanged".  At `text = "aaaaa "` (trailing space) and `max_size = 3`, the
single produced chunk is `"aaaaa"`: it exceeds `max_size`, yet it is not
equal to any input line — the code emits `buf.strip()`, which strips the
trailing space. -/
theorem claim_C3_counterexample :
    ∃ c ∈ chunk_text ("aaaaa ".toList) 3,
      ¬(c.length ≤ 3 ∨ ∃ l ∈ splitlines ("aaaaa ".toList), 3 < l.length ∧ c = l) := by
  decide

/-- **C4.**  For every input text and every `max_size > 0`, concatenating
all chunks produced by `chunk_text` preserves the sequence of
whitespace-delimited words of the original text exactly (chunking loses only
whitespace at chunk boundaries: dropped all-whitespace buffers contain no
words, and `strip` removes only boundary whitespace). -/
theorem claim_C4 : ∀ (text : List Char) (max_size : Nat), 0 < max_size →
    ((chunk_text text max_size).map words).flatten = words text := by
  intro text max_size _
  unfold chunk_text
  rw [chunkLoop_words max_size (splitlines text) [] (Or.inl rfl), words_nil,
    List.nil_append, splitlines_words]

theorem claim_C4_witness :
    0 < 800 ∧
      ((chunk_text ("alpha beta gamma".toList) 800).map words).flatten =
        words ("alpha beta gamma".toList) :=
  ⟨by decide, claim_C4 ("alpha beta gamma".toList) 800 (by decide)⟩

/-- **C5.**  For every raw vector returned by the embedding backend (with at
least one nonzero component — the nondegenerate case the claim speaks
about), `embed_text` divides every component by the vector's L2 norm,
treating a zero norm as 1 so the division is always defined; the returned
vector has L2 norm exactly 1 in the real-number model (hence within floating
tolerance in the implementation), and the plain dot product of two returned
vectors equals their cosine similarity — both the cosine of the raw vectors
(`dot a b / (‖a‖ * ‖b‖)`) and, trivially by unit norms, the cosine of the
returned vectors themselves. -/
theorem claim_C5 : ∀ (vec : List ℝ), (∃ x ∈ vec, x ≠ 0) →
    embed_text vec = vec.map (fun v => v / (if l2norm vec = 0 then 1 else l2norm vec)) ∧
    l2norm (embed_text vec) = 1 ∧
    (∀ w : List ℝ, (∃ y ∈ w, y ≠ 0) →
      dotf (embed_text vec) (embed_text w) = dotf vec w / (l2norm vec * l2norm w) ∧
      dotf (embed_text vec) (embed_text w) =
        dotf (embed_text vec) (embed_text w) /
          (l2norm (embed_text vec) * l2norm (embed_text w))) := by
  intro vec hvec
  rcases hvec with ⟨x, hx, hx0⟩
  refine ⟨rfl, l2norm_embed_text hx hx0, ?_⟩
  intro w hw
  rcases hw with ⟨y, hy, hy0⟩
  constructor
  · have hv : l2norm vec ≠ 0 := ne_of_gt (l2norm_pos hx hx0)
    have hwn : l2norm w ≠ 0 := ne_of_gt (l2norm_pos hy hy0)
    unfold embed_text
    simp only [if_neg hv, if_neg hwn]
    exact dotf_map_div vec w (l2norm vec) (l2norm w)
  · rw [l2norm_embed_text hx hx0, l2norm_embed_text hy hy0, one_mul, div_one]

theorem claim_C5_witness :
    (∃ x ∈ [(3 : ℝ), 4], x ≠ 0) ∧ l2norm (embed_text [(3 : ℝ), 4]) = 1 :=
  have h : ∃ x ∈ [(3 : ℝ), 4], x ≠ 0 := ⟨3, by simp, by norm_num⟩
  ⟨h, (claim_C5 [(3 : ℝ), 4] h).2.1⟩

/-- **C1.**  Threshold filtering applies only to the already-truncated top-K
candidates, in both backends: for every index, query embedding, `top_k` and
threshold, the filtered retrieval succeeds, is a sublist of the unfiltered
top-K result for the same inputs (so no chunk outside the top-K can appear,
however high its score), every returned result scores at least the
threshold, and filtering an empty top-K candidate set yields an empty result
without error. -/
theorem claim_C1 : ∀ (indexChunks : List Chunk) (q_emb : List ℚ) (top_k : Nat) (t : ℚ),
    ∃ (uc fc : Day15Response) (uc16 fc16 : Day16Response),
      day15.retrieve_chunks indexChunks (.ok q_emb) top_k none = .ok uc ∧
      day15.retrieve_chunks indexChunks (.ok q_emb) top_k (some t) = .ok fc ∧
      day16.retrieve indexChunks (.ok q_emb) top_k none = .ok uc16 ∧
      day16.retrieve indexChunks (.ok q_emb) top_k (some t) = .ok fc16 ∧
      fc.chunks.Sublist uc.chunks ∧ fc16.chunks.Sublist uc16.chunks ∧
      (∀ r ∈ fc.chunks, t ≤ r.score) ∧ (∀ r ∈ fc16.chunks, t ≤ r.score) ∧
      (uc.chunks = [] → fc.chunks = []) ∧ (uc16.chunks = [] → fc16.chunks = []) := by
  intro indexChunks q_emb top_k t
  by_cases hemp : indexChunks.isEmpty
  · refine ⟨⟨[], []⟩, ⟨[], []⟩, ⟨[]⟩, ⟨[]⟩, ?_, ?_, ?_, ?_, ?_, ?_, ?_, ?_, ?_, ?_⟩ <;>
      simp [day15.retrieve_chunks, day16.retrieve, hemp]
  · unfold day15.retrieve_chunks day16.retrieve
    simp only [if_neg hemp]
    refine ⟨_, _, _, _, rfl, rfl, rfl, rfl, ?_, ?_, ?_, ?_, ?_, ?_⟩
    · exact List.Sublist.map _ (List.filter_sublist _)
    · exact List.Sublist.map _ (List.filter_sublist _)
    · intro r hr
      rcases List.mem_map.mp hr with ⟨s, hs, rfl⟩
      exact of_decide_eq_true (List.mem_filter.mp hs).2
    · intro r hr
      rcases List.mem_map.mp hr with ⟨s, hs, rfl⟩
      exact of_decide_eq_true (List.mem_filter.mp hs).2
    · intro h
      rw [List.map_eq_nil] at h
      simp [h]
    · intro h
      rw [List.map_eq_nil] at h
      simp [h]

theorem claim_C1_witness :
    ∃ (uc fc : Day15Response) (uc16 fc16 : Day16Response),
      day15.retrieve_chunks [⟨"chunk-0", "a.txt", 0, "hi".toList, [1]⟩]
        (.ok [1]) 8 none = .ok uc ∧
      day15.retrieve_chunks [⟨"chunk-0", "a.txt", 0, "hi".toList, [1]⟩]
        (.ok [1]) 8 (some (1 / 2)) = .ok fc ∧
      day16.retrieve [⟨"chunk-0", "a.txt", 0, "hi".toList, [1]⟩]
        (.ok [1]) 8 none = .ok uc16 ∧
      day16.retrieve [⟨"chunk-0", "a.txt", 0, "hi".toList, [1]⟩]
        (.ok [1]) 8 (some (1 / 2)) = .ok fc16 ∧
      fc.chunks.Sublist uc.chunks ∧ fc16.chunks.Sublist uc16.chunks ∧
      (∀ r ∈ fc.chunks, (1 : ℚ) / 2 ≤ r.score) ∧
      (∀ r ∈ fc16.chunks, (1 : ℚ) / 2 ≤ r.score) ∧
      (uc.chunks = [] → fc.chunks = []) ∧ (uc16.chunks = [] → fc16.chunks = []) :=
  claim_C1 [⟨"chunk-0", "a.txt", 0, "hi".toList, [1]⟩] [1] 8 (1 / 2)

/-- **C2.**  For a non-empty index, the unfiltered retrieval succeeds and
returns exactly the first `top_k` elements of the scored chunk list sorted
by score descending with ties kept in insertion order — here expressed by
exhibiting the sorted list together with the three properties that
characterise Python's stable `reverse=True` sort (permutation of the scored
list, non-increasing scores, and score-fiber preservation), plus the
uniqueness of any list with these properties; the result length is
`min top_k N`, so at most `top_k` results, and all chunks are returned when
`top_k ≥ N`; retrieval of identical inputs is definitionally deterministic
in the pure model. -/
theorem claim_C2 : ∀ (indexChunks : List Chunk) (q_emb : List ℚ) (top_k : Nat),
    indexChunks ≠ [] →
    ∃ (uc : Day15Response) (sortedL : List (ℚ × Chunk)),
      day15.retrieve_chunks indexChunks (.ok q_emb) top_k none = .ok uc ∧
      sortedL.Perm (indexChunks.map (fun ch => (cosine_sim q_emb ch.embedding, ch))) ∧
      ScoreDesc sortedL ∧
      (∀ s : ℚ, sortedL.filter (fun y => decide (y.1 = s)) =
        (indexChunks.map (fun ch => (cosine_sim q_emb ch.embedding, ch))).filter
          (fun y => decide (y.1 = s))) ∧
      (∀ l' : List (ℚ × Chunk), ScoreDesc l' →
        (∀ s : ℚ, l'.filter (fun y => decide (y.1 = s)) =
          (indexChunks.map (fun ch => (cosine_sim q_emb ch.embedding, ch))).filter
            (fun y => decide (y.1 = s))) → l' = sortedL) ∧
      uc.chunks = (sortedL.take top_k).map
        (fun s => ⟨s.2.doc, s.2.chunk_index, s.2.text, s.1⟩) ∧
      uc.chunks.length = min top_k indexChunks.length ∧
      (indexChunks.length ≤ top_k →
        uc.chunks = sortedL.map (fun s => ⟨s.2.doc, s.2.chunk_index, s.2.text, s.1⟩)) ∧
      day15.retrieve_chunks indexChunks (.ok q_emb) top_k none =
        day15.retrieve_chunks indexChunks (.ok q_emb) top_k none := by
  intro indexChunks q_emb top_k hne
  have hemp : ¬(indexChunks.isEmpty = true) := by
    simpa [List.isEmpty_iff] using hne
  refine ⟨⟨((sortByScoreDesc (indexChunks.map
        (fun ch => (cosine_sim q_emb ch.embedding, ch)))).take top_k).map
          (fun s => ⟨s.2.doc, s.2.chunk_index, s.2.text, s.1⟩),
      (sortByScoreDesc (indexChunks.map
        (fun ch => (cosine_sim q_emb ch.embedding, ch)))).map (fun s => s.1)⟩,
    sortByScoreDesc (indexChunks.map (fun ch => (cosine_sim q_emb ch.embedding, ch))),
    ?_, sortByScoreDesc_perm _, sortByScoreDesc_sorted _,
    (fun s => sortByScoreDesc_stable s _), ?_, rfl, ?_, ?_, rfl⟩
  · unfold day15.retrieve_chunks
    rw [if_neg hemp]
  · intro l' hs hf
    exact scoreDesc_stable_unique l' _ hs (sortByScoreDesc_sorted _)
      (fun s => (hf s).trans (sortByScoreDesc_stable s _).symm)
  · rw [List.length_map, List.length_take,
      (sortByScoreDesc_perm _).length_eq, List.length_map]
  · intro hk
    rw [List.take_of_length_le]
    rw [(sortByScoreDesc_perm _).length_eq, List.length_map]
    exact hk

theorem claim_C2_witness :
    ∃ uc : Day15Response,
      day15.retrieve_chunks [⟨"chunk-0", "a.txt", 0, "hi".toList, [1]⟩]
        (.ok [1]) 8 none = .ok uc ∧
      uc.chunks.length = min 8 1 := by
  obtain ⟨uc, _, heq, _, _, _, _, _, hlen, _, _⟩ :=
    claim_C2 [⟨"chunk-0", "a.txt", 0, "hi".toList, [1]⟩] [1] 8 (by simp)
  exact ⟨uc, heq, by simpa using hlen⟩

/-- **C10.**  On every index content, query-embedding outcome, `top_k` and
optional threshold, the day15 retriever and the day16 retriever return
exactly the same ordered list of result chunks (same doc, chunk_index, text
and score in the same order); day15 additionally returns `all_scores`, which
is outside the common output. -/
theorem claim_C10 : ∀ (indexChunks : List Chunk) (embedQ : Except String (List ℚ))
    (top_k : Nat) (threshold : Option ℚ),
    (day15.retrieve_chunks indexChunks embedQ top_k threshold).map Day15Response.chunks =
      (day16.retrieve indexChunks embedQ top_k threshold).map Day16Response.chunks := by
  intro indexChunks embedQ top_k threshold
  by_cases hemp : indexChunks.isEmpty
  · simp [day15.retrieve_chunks, day16.retrieve, hemp, Except.map]
  · cases embedQ with
    | error msg => simp [day15.retrieve_chunks, day16.retrieve, hemp, Except.map]
    | ok q_emb =>
      cases threshold with
      | none => simp [day15.retrieve_chunks, day16.retrieve, hemp, Except.map]
      | some t => simp [day15.retrieve_chunks, day16.retrieve, hemp, Except.map]

/-- **C6.**  An empty corpus walk makes `/reindex` succeed with an index of
zero chunks and `doc_count = 0` (persisted and cached), and retrieval
against an index with zero chunks returns an empty result for every
query-embedding outcome, `top_k` and threshold — in particular also when the
embedding call would fail, because the empty-index early return precedes the
`embed_text` call, so the embedding backend is never consulted. -/
theorem claim_C6 : ∀ (st : BackendState) (embedT : List Char → Except String (List ℚ)),
    day15.reindex_endpoint st [] embedT =
      (⟨some ⟨[], 0⟩, ⟨[], 0⟩⟩, .ok ⟨true, 0, 0, "Indexed 0 docs into 0 chunks."⟩) ∧
    ∀ (embedQ : Except String (List ℚ)) (top_k : Nat) (th : Option ℚ),
      day15.retrieve_chunks [] embedQ top_k th = .ok ⟨[], []⟩ := by
  intro st embedT
  exact ⟨rfl, fun _ _ _ => rfl⟩

/-- **C7.**  If the embedding service fails on any chunk text submitted
during a rebuild, `/reindex` propagates the error and aborts without
touching the persisted artifact or the in-memory cache (the endpoint's
state component is returned unchanged); and whenever `/reindex` succeeds,
the persisted artifact equals the cached index and every stored chunk
carries exactly the vector the embedder returned for its text — no chunk is
ever missing its vector. -/
theorem claim_C7 : ∀ (st : BackendState) (files : List (String × List Char))
    (embedT : List Char → Except String (List ℚ)),
    ((∃ t ∈ corpusChunkTexts files, ∃ e, embedT t = .error e) →
      (day15.reindex_endpoint st files embedT).1 = st ∧
      ∃ e, (day15.reindex_endpoint st files embedT).2 = .error e) ∧
    (∀ (st2 : BackendState) (resp : day15.ReindexResponse),
      day15.reindex_endpoint st files embedT = (st2, .ok resp) →
      st2.savedFile = some st2.cache ∧
      ∀ ch ∈ st2.cache.chunks, embedT ch.text = .ok ch.embedding) := by
  intro st files embedT
  constructor
  · rintro ⟨t, ht, e, he⟩
    match hl : day15.reindexLoop embedT files 0 0 with
    | .ok res =>
      rcases day15.reindexLoop_ok_embeds embedT files 0 0 res hl t ht with ⟨v, hv⟩
      rw [hv] at he
      exact absurd he (by simp)
    | .error e2 =>
      unfold day15.reindex_endpoint
      simp only [hl]
      exact ⟨by simp, e2, by simp⟩
  · intro st2 resp h
    match hl : day15.reindexLoop embedT files 0 0 with
    | .error e2 =>
      unfold day15.reindex_endpoint at h
      simp [hl] at h
    | .ok (chunks, dc) =>
      unfold day15.reindex_endpoint at h
      simp only [hl] at h
      rw [Prod.mk.injEq] at h
      obtain ⟨h1, _⟩ := h
      rw [← h1]
      refine ⟨rfl, ?_⟩
      intro ch hch
      exact day15.reindexLoop_ok_vectors embedT files 0 0 (chunks, dc) hl ch hch

theorem claim_C7_witness :
    (day15.reindex_endpoint ⟨none, ⟨[], 0⟩⟩ [("a.txt", "hello".toList)]
        (fun _ => .error "boom")).1 = ⟨none, ⟨[], 0⟩⟩ ∧
    ∃ e, (day15.reindex_endpoint ⟨none, ⟨[], 0⟩⟩ [("a.txt", "hello".toList)]
        (fun _ => .error "boom")).2 = .error e :=
  (claim_C7 ⟨none, ⟨[], 0⟩⟩ [("a.txt", "hello".toList)] (fun _ => .error "boom")).1
    ⟨"hello".toList, by decide, "boom", rfl⟩

/-- **C8, corrected.**  `doc_count` is incremented for every recognised
`.txt`/`.md` file of the walk *before* the file is chunked, so the recorded
`document_count` equals the number of recognised files encountered — whether
or not they contributed any chunk.  A recognised file that yields zero
chunks (e.g. an empty file) is still counted, contrary to the claim as
stated. -/
theorem claim_C8 : ∀ (st st2 : BackendState) (files : List (String × List Char))
    (embedT : List Char → Except String (List ℚ)) (resp : day15.ReindexResponse),
    day15.reindex_endpoint st files embedT = (st2, .ok resp) →
    st2.cache.doc_count = (files.filter (fun f => recognizedExt f.1)).length ∧
    resp.doc_count = (files.filter (fun f => recognizedExt f.1)).length := by
  intro st st2 files embedT resp h
  match hl : day15.reindexLoop embedT files 0 0 with
  | .error e =>
    unfold day15.reindex_endpoint at h
    simp [hl] at h
  | .ok (chunks, dc) =>
    have hdc := day15.reindexLoop_ok_doc_count embedT files 0 0 (chunks, dc) hl
    simp only at hdc
    unfold day15.reindex_endpoint at h
    simp only [hl] at h
    rw [Prod.mk.injEq] at h
    obtain ⟨h1, h2⟩ := h
    have h3 : resp = ⟨true, dc, chunks.length,
        "Indexed " ++ toString dc ++ " docs into " ++ toString chunks.length ++ " chunks."⟩ :=
      ((Except.ok.injEq ..).mp h2).symm
    rw [← h1, h3]
    constructor
    · show dc = (files.filter (fun f => recognizedExt f.1)).length
      omega
    · show dc = (files.filter (fun f => recognizedExt f.1)).length
      omega

theorem claim_C8_witness :
    ((⟨some ⟨[], 1⟩, ⟨[], 1⟩⟩ : BackendState).cache.doc_count =
      ([("a.txt", ([] : List Char))].filter (fun f => recognizedExt f.1)).length) ∧
    ((⟨true, 1, 0, "Indexed 1 docs into 0 chunks."⟩ : day15.ReindexResponse).doc_count =
      ([("a.txt", ([] : List Char))].filter (fun f => recognizedExt f.1)).length) :=
  claim_C8 ⟨none, ⟨[], 0⟩⟩ ⟨some ⟨[], 1⟩, ⟨[], 1⟩⟩ [("a.txt", [])] (fun _ => .ok [])
    ⟨true, 1, 0, "Indexed 1 docs into 0 chunks."⟩ rfl

/-- **C8, counterexample to the claim as stated.**  Reindexing a corpus
whose single recognised file `a.txt` is empty produces an index with
`doc_count = 1` but an empty chunk list: the number of distinct documents
contributing at least one chunk is `0`, not `1`, so `document_count` does
not equal the number of contributing documents. -/
theorem claim_C8_counterexample :
    day15.reindex_endpoint ⟨none, ⟨[], 0⟩⟩ [("a.txt", [])] (fun _ => .ok []) =
      (⟨some ⟨[], 1⟩, ⟨[], 1⟩⟩, .ok ⟨true, 1, 0, "Indexed 1 docs into 0 chunks."⟩) ∧
    ¬((⟨[], 1⟩ : RagIndex).doc_count =
        (((⟨[], 1⟩ : RagIndex).chunks.map Chunk.doc).dedup).length) := by
  exact ⟨rfl, by decide⟩

set_option maxRecDepth 40000 in
/-- **C9, corrected.**  When the retrieval result list is empty, both
backends still build their fixed framing prompt, but with an *empty* context
block and no marker of any kind signalling that no context was found: the
composed prompt is exactly the framing text with nothing between the
`CONTEXT` header and the `QUESTION` section. -/
theorem claim_C9 : ∀ q : String,
    day15.compose_rag_prompt q [] =
      "You are a helpful assistant using RAG.\nYou are given CONTEXT extracted from local documents.\nUse it when relevant. If you don\x27t see an answer in the context, say so.\n\nCONTEXT:\n\n\nQUESTION: " ++ q ∧
    day16.compose_citations_prompt q [] =
      "You are a RAG assistant that MUST ALWAYS cite sources.\n\nRULES:\n- Use citations in the format: [filename#chunk_index] (e.g., [agents_overview.txt#0])\n- Every important fact or claim must include a citation\n- At the end of your answer, include a CITATIONS section listing all sources used\n\nCONTEXT (with chunk IDs):\n\n\nQUESTION: " ++ q ++ "\n\n" ++
        "Provide a detailed answer with inline citations like [filename#chunk_index] throughout your response.\n" ++
        "End with a CITATIONS section listing all sources used.\n" := by
  intro q
  exact ⟨rfl, rfl⟩

set_option maxRecDepth 40000 in
/-- **C9, counterexample to the claim as stated.**  The claim requires an
explicit "no context found" marker when the result list is empty, i.e. a
prompt different from the framing text wrapped around an empty context
block.  At `question = "q"` and an empty result list, the composed prompts
are *exactly* the framing text with an empty context block (note the bare
`CONTEXT:` header directly followed by the blank separator and the
`QUESTION` section), refuting the claim. -/
theorem claim_C9_counterexample :
    day15.compose_rag_prompt "q" [] =
      "You are a helpful assistant using RAG.\nYou are given CONTEXT extracted from local documents.\nUse it when relevant. If you don\x27t see an answer in the context, say so.\n\nCONTEXT:\n\n\nQUESTION: q" ∧
    day16.compose_citations_prompt "q" [] =
      "You are a RAG assistant that MUST ALWAYS cite sources.\n\nRULES:\n- Use citations in the format: [filename#chunk_index] (e.g., [agents_overview.txt#0])\n- Every important fact or claim must include a citation\n- At the end of your answer, include a CITATIONS section listing all sources used\n\nCONTEXT (with chunk IDs):\n\n\nQUESTION: q\n\nProvide a detailed answer with inline citations like [filename#chunk_index] throughout your response.\nEnd with a CITATIONS section listing all sources used.\n" :=
  ⟨rfl, rfl⟩
